import Mathlib

/-!
Verification of the transfer-and-synchronization engine of the Dropbox
Developer-Samples file browser: the paginated listing aggregator, the
chunked upload pipeline, the change-feed polling cycle, and the batch
transfer scheduler's concurrency bound.

The definitions are shallow embeddings of the JavaScript source in
`Sample Apps/JavaScript/file_browser/src/utils/dropboxClient.js` and
`.../components/FileBrowser.jsx`, together with a spec-modelled pool
semantics for the performant-upload tool whose Python source is not part
of the sampled files.
-/

namespace DropboxSamples

/-- One remote entry as consumed by `listFolder` and the change merge:
`key` is `path_lower`, `isFolder` embeds `entry['.tag'] === 'folder'`. -/
structure Entry where
  key : String
  name : String
  isFolder : Bool
  size : Nat
deriving DecidableEq, Repr

/-- The sort comparator of `listFolder` (dropboxClient.js lines 234-239),
read as a "sorts before or ties" relation: folders before files, then
case-insensitive lexicographic comparison of the display names. -/
def entryRel (a b : Entry) : Prop :=
  (a.isFolder = true ∧ b.isFolder = false) ∨
    (a.isFolder = b.isFolder ∧ a.name.toLower ≤ b.name.toLower)

instance : DecidableRel entryRel := fun a b => by
  unfold entryRel
  infer_instance

instance : IsTotal Entry entryRel where
  total a b := by
    unfold entryRel
    cases ha : a.isFolder <;> cases hb : b.isFolder
    · rcases le_total a.name.toLower b.name.toLower with h | h
      · exact Or.inl (Or.inr ⟨rfl, h⟩)
      · exact Or.inr (Or.inr ⟨rfl, h⟩)
    · exact Or.inr (Or.inl ⟨rfl, rfl⟩)
    · exact Or.inl (Or.inl ⟨rfl, rfl⟩)
    · rcases le_total a.name.toLower b.name.toLower with h | h
      · exact Or.inl (Or.inr ⟨rfl, h⟩)
      · exact Or.inr (Or.inr ⟨rfl, h⟩)

instance : IsTrans Entry entryRel where
  trans a b c hab hbc := by
    unfold entryRel at *
    rcases hab with ⟨ha, hb⟩ | ⟨hab, hnab⟩ <;>
      rcases hbc with ⟨hb2, hc⟩ | ⟨hbc, hnbc⟩
    · exact absurd hb2 (by simp [hb])
    · exact Or.inl ⟨ha, hbc ▸ hb⟩
    · exact Or.inl ⟨hab ▸ hb2, hc⟩
    · exact Or.inr ⟨hab.trans hbc, le_trans hnab hnbc⟩

/-- Embedding of `entries.sort(comparator)` in `listFolder`. -/
def sortEntries (l : List Entry) : List Entry :=
  List.insertionSort entryRel l

/-- One page of a paginated listing response: the `entries` of the page
and the continuation `cursor` it carries. -/
structure Page where
  entries : List Entry
  cursor : String
deriving DecidableEq, Repr

/-- The pagination loop of `listFolder`: the first page is the response
of `filesListFolder`; while `has_more` is set (here: while further pages
remain) `filesListFolderContinue` supplies the next page, and entries are
concatenated; the cursor of the final page is kept. -/
def drainPages : Page → List Page → List Entry × String
  | p, [] => (p.entries, p.cursor)
  | p, q :: rest =>
      let r := drainPages q rest
      (p.entries ++ r.1, r.2)

/-- Embedding of `listFolder` (dropboxClient.js lines 215-245): drain all
pages, sort the aggregate, return it with the final page's cursor. -/
def listFolder (first : Page) (rest : List Page) : List Entry × String :=
  let r := drainPages first rest
  (sortEntries r.1, r.2)

lemma drainPages_fst (p : Page) (ps : List Page) :
    (drainPages p ps).1 = ((p :: ps).map Page.entries).flatten := by
  induction ps generalizing p with
  | nil => simp [drainPages]
  | cons q rest ih => simp [drainPages, ih q]

lemma drainPages_snd (p : Page) (ps : List Page) :
    (drainPages p ps).2 = ((p :: ps).getLast (List.cons_ne_nil p ps)).cursor := by
  induction ps generalizing p with
  | nil => simp [drainPages]
  | cons q rest ih =>
      rw [List.getLast_cons (List.cons_ne_nil q rest)]
      simpa [drainPages] using ih q

/-- `CHUNK_SIZE` of `uploadFile` (dropboxClient.js line 274): 64 MiB. -/
def CHUNK_SIZE : Nat := 64 * 1024 * 1024

/-- The small-file threshold of `uploadFile` (line 277): 150 MiB. -/
def SMALL_FILE_THRESHOLD : Nat := 150 * 1024 * 1024

/-- Write mode of an upload commit (`mode` field of `filesUpload` and of
the `filesUploadSessionFinish` commit info). -/
inductive UploadMode where
  | add
  | overwrite
deriving DecidableEq, Repr

/-- Commit metadata carried by the one-shot upload and the session
finish: destination path, write mode, autorename flag. -/
structure Commit where
  path : String
  mode : UploadMode
  autorename : Bool
deriving DecidableEq, Repr

/-- One network call issued by `uploadFile`, with the byte count of the
payload it carries and, for session calls after the start, the cursor
offset it is sent at. -/
inductive Call where
  | sessionStart (bytes : Nat)
  | sessionAppend (offset bytes : Nat)
  | sessionFinish (offset bytes : Nat) (commit : Commit)
  | uploadSmall (bytes : Nat) (commit : Commit)
deriving DecidableEq, Repr

/-- The `while (offset < file.size)` loop of `uploadFile` (lines
289-319): each iteration slices `min CHUNK_SIZE (size - offset)` bytes;
if the chunk reaches the end of the file the session is finished with
the commit info and the loop returns, otherwise the chunk is appended
and the offset advances by the chunk's length. -/
def sessionLoopCalls (size offset : Nat) (commit : Commit) : List Call :=
  if h : offset < size then
    let chunk := min CHUNK_SIZE (size - offset)
    if size ≤ offset + chunk then
      [Call.sessionFinish offset chunk commit]
    else
      Call.sessionAppend offset chunk :: sessionLoopCalls size (offset + chunk) commit
  else []
termination_by size - offset
decreasing_by
  simp only [CHUNK_SIZE] at *
  omega

/-- The chunked-upload branch of `uploadFile` (lines 278-319): start the
session with the first `min CHUNK_SIZE size` bytes, then run the append
or finish loop from that offset. -/
def sessionCalls (size : Nat) (commit : Commit) : List Call :=
  Call.sessionStart (min CHUNK_SIZE size) ::
    sessionLoopCalls size (min CHUNK_SIZE size) commit

/-- The destination path `path + "/" + file.name` (line 275). -/
def targetPath (path name : String) : String := path ++ "/" ++ name

/-- Embedding of `uploadFile` (dropboxClient.js lines 270-334) as the
list of network calls it issues for a payload of `size` bytes: sizes
above 150 MiB go through the upload session protocol, all others
through a single `filesUpload` call; both use mode `add` with
`autorename: true` on the destination path. -/
def uploadFileCalls (size : Nat) (path name : String) : List Call :=
  if SMALL_FILE_THRESHOLD < size then
    sessionCalls size ⟨targetPath path name, UploadMode.add, true⟩
  else
    [Call.uploadSmall size ⟨targetPath path name, UploadMode.add, true⟩]

/-- Recognizer for session start calls. -/
def isStart : Call → Bool
  | Call.sessionStart _ => true
  | _ => false

/-- Recognizer for session append calls. -/
def isAppend : Call → Bool
  | Call.sessionAppend _ _ => true
  | _ => false

/-- Recognizer for session finish calls. -/
def isFinish : Call → Bool
  | Call.sessionFinish _ _ _ => true
  | _ => false

/-- The number of payload bytes a call carries. -/
def bytesOf : Call → Nat
  | Call.sessionStart b => b
  | Call.sessionAppend _ b => b
  | Call.sessionFinish _ b _ => b
  | Call.uploadSmall b _ => b

/-- The offsets at which append and finish calls are sent, in order. -/
def offsetsOf : List Call → List Nat
  | [] => []
  | Call.sessionAppend off _ :: rest => off :: offsetsOf rest
  | Call.sessionFinish off _ _ :: rest => off :: offsetsOf rest
  | Call.sessionStart _ :: rest => offsetsOf rest
  | Call.uploadSmall _ _ :: rest => offsetsOf rest

/-- `OffsetsSeq acc calls` states that, with `acc` bytes already
transmitted in the session, every subsequent call of `calls` is sent at
an offset equal to the running total of bytes sent before it, the start
is sent only at the very beginning, and each call advances the total by
exactly the bytes it carries. -/
def OffsetsSeq : Nat → List Call → Prop
  | _, [] => True
  | acc, Call.sessionStart b :: rest => acc = 0 ∧ OffsetsSeq b rest
  | acc, Call.sessionAppend off b :: rest => off = acc ∧ OffsetsSeq (acc + b) rest
  | acc, Call.sessionFinish off b _ :: rest => off = acc ∧ OffsetsSeq (acc + b) rest
  | acc, Call.uploadSmall _ _ :: rest => OffsetsSeq acc rest

/-- One record of a delta batch (FileBrowser.jsx change processing): a
change whose tag is `deleted` removes the key, any other change upserts
the entry under its key. -/
inductive Change where
  | upsert (e : Entry)
  | tombstone (key : String)
deriving DecidableEq, Repr

/-- The Entry Cache: the key-to-entry map the change merge builds
(`new Map(prevEntries.map(entry => [entry.path_lower, entry]))`),
kept as the map's association list. -/
abbrev EntryCache := List (String × Entry)

/-- `Map.prototype.set`: replace in place when the key is present,
append otherwise. -/
def cacheSet (m : EntryCache) (k : String) (v : Entry) : EntryCache :=
  if m.any (fun p => p.1 == k) then
    m.map (fun p => if p.1 == k then (p.1, v) else p)
  else m ++ [(k, v)]

/-- `Map.prototype.delete`: remove the pair with the key. -/
def cacheDelete (m : EntryCache) (k : String) : EntryCache :=
  m.filter (fun p => p.1 != k)

/-- `Map.prototype.get` as an `Option`. -/
def cacheLookup (m : EntryCache) (k : String) : Option Entry :=
  (m.find? (fun p => p.1 == k)).map Prod.snd

/-- One step of the change merge loop (FileBrowser.jsx lines 466-474):
deleted records remove their key, every other record is set under its
`path_lower`. -/
def applyChange (m : EntryCache) (c : Change) : EntryCache :=
  match c with
  | Change.tombstone k => cacheDelete m k
  | Change.upsert e => cacheSet m e.key e

/-- Applying a whole delta batch in server order. -/
def applyChanges (m : EntryCache) (cs : List Change) : EntryCache :=
  cs.foldl applyChange m

/-- The effect of one change on the value stored under a fixed key. -/
def applyKey (k : String) (v : Option Entry) (c : Change) : Option Entry :=
  match c with
  | Change.tombstone k2 => if k = k2 then none else v
  | Change.upsert e => if k = e.key then some e else v

/-- Whether a change targets the key `k`. -/
def touches (k : String) : Change → Bool
  | Change.tombstone k2 => k == k2
  | Change.upsert e => k == e.key

/-- Rebuilding the ephemeral map from the rendered entries list. -/
def toCache (entries : List Entry) : EntryCache :=
  entries.map (fun e => (e.key, e))

/-- A long-poll response: the `changes` flag and the optional `backoff`
duration in seconds. -/
structure PollResult where
  changes : Bool
  backoff : Option Nat
deriving DecidableEq, Repr

/-- A fully aggregated delta batch as returned by `getChanges`: the
change records and the terminal cursor. -/
structure Delta where
  records : List Change
  cursor : String
deriving DecidableEq, Repr

/-- The FileBrowser state touched by one polling cycle: the rendered
entries list and the cursor. -/
structure FBState where
  entries : List Entry
  cursor : String
deriving DecidableEq, Repr

/-- The remote's behaviour during one polling cycle: the long-poll
outcome, the delta-fetch outcome, and the listing a full reload would
produce. Errors carry no payload. -/
structure PollEnv where
  poll : Except Unit PollResult
  delta : Except Unit Delta
  fresh : FBState
deriving Repr

/-- The observable outcome of one cycle of `startLongPolling`: the new
state, the delay in milliseconds before the next poll is scheduled,
whether a delta fetch was attempted, whether the cycle fell back to a
full re-listing, and whether any error escaped to the caller. -/
structure CycleResult where
  state : FBState
  delayMs : Nat
  deltaAttempted : Bool
  fullReload : Bool
  errorSurfaced : Bool
deriving DecidableEq, Repr

/-- Merging a successful delta into the state (FileBrowser.jsx lines
462-485): rebuild the map from the previous entries, apply every record
in order, convert back to an array, re-sort, and adopt the delta's
cursor. -/
def mergeDelta (s : FBState) (d : Delta) : FBState :=
  { entries := sortEntries ((applyChanges (toCache s.entries) d.records).map Prod.snd),
    cursor := d.cursor }

/-- Embedding of one cycle of `startLongPolling` (FileBrowser.jsx lines
449-513). A failed long poll is caught and retried after 5000 ms. On
changes, the delta is fetched: on success it is merged and the cursor
rotated; on failure the error is caught, logged, and the cycle falls
back to a full reload (`loadCurrentFolder`), adopting the fresh
listing's entries and cursor. Afterwards, a truthy `backoff` schedules
the next poll after `backoff * 1000` ms, otherwise after 1000 ms. -/
def pollCycle (env : PollEnv) (s : FBState) : CycleResult :=
  match env.poll with
  | Except.error _ =>
      { state := s, delayMs := 5000, deltaAttempted := false,
        fullReload := false, errorSurfaced := false }
  | Except.ok result =>
      let merged : FBState × Bool × Bool :=
        if result.changes then
          match env.delta with
          | Except.ok d => (mergeDelta s d, true, false)
          | Except.error _ => (env.fresh, true, true)
        else (s, false, false)
      let backoffTruthy : Bool :=
        match result.backoff with
        | some b => b != 0
        | none => false
      let delay : Nat :=
        if backoffTruthy then (result.backoff.getD 0) * 1000 else 1000
      { state := merged.1, delayMs := delay, deltaAttempted := merged.2.1,
        fullReload := merged.2.2, errorSurfaced := false }

/-- Modelled from the spec: the missing `performant_upload.py` batch
scheduler (spec section 4.4 and the sampled config.ini, `src/unnamed/
part_003`). A scheduler state records, for each active upload session,
how many chunk operations it is running; `batch_thread_count` is `B`,
`concurrent_thread_count` is `C`. -/
inductive PoolStep (B C : Nat) : List Nat → List Nat → Prop where
  | startJob (s : List Nat) (h : s.length < B) : PoolStep B C s (0 :: s)
  | startChunk (pre post : List Nat) (j : Nat) (h : j < C) :
      PoolStep B C (pre ++ j :: post) (pre ++ (j + 1) :: post)
  | endChunk (pre post : List Nat) (j : Nat) :
      PoolStep B C (pre ++ (j + 1) :: post) (pre ++ j :: post)
  | endJob (pre post : List Nat) :
      PoolStep B C (pre ++ 0 :: post) (pre ++ post)

/-- Modelled from the spec: scheduler states reachable from the idle
scheduler by pool steps. -/
inductive PoolReachable (B C : Nat) : List Nat → Prop where
  | init : PoolReachable B C []
  | step {s t : List Nat} :
      PoolReachable B C s → PoolStep B C s t → PoolReachable B C t

/-- The pool invariant: at most `B` active jobs, each running at most
`C` concurrent chunk operations. -/
def PoolInv (B C : Nat) (s : List Nat) : Prop :=
  s.length ≤ B ∧ ∀ j ∈ s, j ≤ C

lemma sortEntries_perm (l : List Entry) : (sortEntries l).Perm l :=
  List.perm_insertionSort entryRel l

lemma sortEntries_sorted (l : List Entry) : List.Sorted entryRel (sortEntries l) :=
  List.sorted_insertionSort entryRel l

/-- Claim C1: for every folder scope whose total entries, split across
arbitrarily many pages, number N, `listFolder` returns exactly those N
entries in one sequence — a permutation of the concatenation of all
pages, of the full length N — sorted folders before files and then
case-insensitive lexicographic by display name, and returns the cursor
of the final page; it never returns an incomplete result. -/
theorem listFolder_returns_all_sorted (first : Page) (rest : List Page) :
    (listFolder first rest).1.Perm (((first :: rest).map Page.entries).flatten)
    ∧ (listFolder first rest).1.length
        = (((first :: rest).map Page.entries).flatten).length
    ∧ List.Sorted entryRel (listFolder first rest).1
    ∧ (listFolder first rest).2
        = ((first :: rest).getLast (List.cons_ne_nil first rest)).cursor := by
  have hperm : (listFolder first rest).1.Perm
      (((first :: rest).map Page.entries).flatten) := by
    rw [← drainPages_fst first rest]
    exact sortEntries_perm (drainPages first rest).1
  refine ⟨hperm, hperm.length_eq, ?_, ?_⟩
  · exact sortEntries_sorted (drainPages first rest).1
  · exact drainPages_snd first rest

lemma sessionLoopCalls_eq_nil {size offset : Nat} (c : Commit)
    (h : ¬ offset < size) : sessionLoopCalls size offset c = [] := by
  rw [sessionLoopCalls]
  simp [h]

lemma sessionLoopCalls_eq_finish {size offset : Nat} (c : Commit)
    (h : offset < size) (h2 : size ≤ offset + min CHUNK_SIZE (size - offset)) :
    sessionLoopCalls size offset c
      = [Call.sessionFinish offset (min CHUNK_SIZE (size - offset)) c] := by
  rw [sessionLoopCalls]
  simp [h, h2]

lemma sessionLoopCalls_eq_append {size offset : Nat} (c : Commit)
    (h : offset < size) (h2 : ¬ size ≤ offset + min CHUNK_SIZE (size - offset)) :
    sessionLoopCalls size offset c
      = Call.sessionAppend offset (min CHUNK_SIZE (size - offset)) ::
          sessionLoopCalls size (offset + min CHUNK_SIZE (size - offset)) c := by
  rw [sessionLoopCalls]
  simp [h, h2]

lemma sessionLoopCalls_finish_commit (size : Nat) :
    ∀ (offset : Nat) (c : Commit), ∀ call ∈ sessionLoopCalls size offset c,
      ∀ off b cm, call = Call.sessionFinish off b cm → cm = c := by
  intro offset c
  induction offset, c using sessionLoopCalls.induct size with
  | case1 offset c h chunk h2 =>
      rw [sessionLoopCalls_eq_finish c h h2]
      rintro call hmem off b cm rfl
      simp at hmem
      exact hmem.2.2
  | case2 offset c h chunk h2 ih =>
      rw [sessionLoopCalls_eq_append c h h2]
      rintro call hmem off b cm rfl
      rcases List.mem_cons.mp hmem with heq | htail
      · cases heq
      · exact ih _ htail off b cm rfl
  | case3 offset c h =>
      rw [sessionLoopCalls_eq_nil c h]
      rintro call hmem
      cases hmem

lemma sessionLoopCalls_finish_count (size : Nat) :
    ∀ (offset : Nat) (c : Commit), offset < size →
      (sessionLoopCalls size offset c).countP (fun call => isFinish call) = 1 := by
  intro offset c
  induction offset, c using sessionLoopCalls.induct size with
  | case1 offset c h chunk h2 =>
      intro _
      rw [sessionLoopCalls_eq_finish c h h2]
      simp [List.countP_cons, isFinish]
  | case2 offset c h chunk h2 ih =>
      intro _
      rw [sessionLoopCalls_eq_append c h h2]
      rw [List.countP_cons]
      have hoff : offset + chunk < size := by omega
      simp only [isFinish]
      simpa using ih hoff
  | case3 offset c h =>
      intro hlt
      exact absurd hlt h

/-- Claim C2: for every payload, `uploadFile` with payload length at
most 150 MiB issues exactly one one-shot upload call carrying the full
payload to destination `path/name` with mode `add` and autorename
(never overwrite); for payload length above 150 MiB it instead drives
the start/append/finish session protocol whose finish call carries the
same destination path and the same add-with-autorename policy. -/
theorem uploadFile_threshold_policy (size : Nat) (path name : String) :
    (size ≤ SMALL_FILE_THRESHOLD →
      uploadFileCalls size path name
        = [Call.uploadSmall size ⟨targetPath path name, UploadMode.add, true⟩])
    ∧ (SMALL_FILE_THRESHOLD < size →
      uploadFileCalls size path name
          = sessionCalls size ⟨targetPath path name, UploadMode.add, true⟩
        ∧ (uploadFileCalls size path name).countP (fun call => isFinish call) = 1
        ∧ ∀ call ∈ uploadFileCalls size path name, ∀ off b cm,
            call = Call.sessionFinish off b cm →
              cm = ⟨targetPath path name, UploadMode.add, true⟩) := by
  constructor
  · intro hle
    rw [uploadFileCalls, if_neg (by omega)]
  · intro hgt
    have hcalls : uploadFileCalls size path name
        = sessionCalls size ⟨targetPath path name, UploadMode.add, true⟩ := by
      rw [uploadFileCalls, if_pos hgt]
    refine ⟨hcalls, ?_, ?_⟩
    · rw [hcalls, sessionCalls, List.countP_cons]
      have hlt : min CHUNK_SIZE size < size := by
        have : CHUNK_SIZE < size := by
          simp only [CHUNK_SIZE, SMALL_FILE_THRESHOLD] at *
          omega
        omega
      simp only [isFinish]
      simpa using sessionLoopCalls_finish_count size (min CHUNK_SIZE size) _ hlt
    · rw [hcalls, sessionCalls]
      rintro call hmem off b cm rfl
      rcases List.mem_cons.mp hmem with heq | htail
      · cases heq
      · exact sessionLoopCalls_finish_commit size _ _ _ htail off b cm rfl

/-- Concrete instances of claim C2: a 5-byte payload issues exactly one
one-shot call, and a payload just above the threshold goes through the
session protocol with one finish carrying the commit policy. -/
theorem uploadFile_threshold_policy_witness :
    uploadFileCalls 5 "/docs" "a.txt"
        = [Call.uploadSmall 5 ⟨"/docs/a.txt", UploadMode.add, true⟩]
    ∧ (uploadFileCalls 157286401 "/docs" "a.txt").countP
        (fun call => isFinish call) = 1 := by
  constructor
  · exact (uploadFile_threshold_policy 5 "/docs" "a.txt").1 (by decide)
  · exact ((uploadFile_threshold_policy 157286401 "/docs" "a.txt").2
      (by decide)).2.1

lemma CHUNK_SIZE_pos : 0 < CHUNK_SIZE := by
  simp [CHUNK_SIZE]

@[simp] lemma isStart_sessionStart (b : Nat) :
    isStart (Call.sessionStart b) = true := rfl

@[simp] lemma isStart_sessionAppend (off b : Nat) :
    isStart (Call.sessionAppend off b) = false := rfl

@[simp] lemma isStart_sessionFinish (off b : Nat) (c : Commit) :
    isStart (Call.sessionFinish off b c) = false := rfl

@[simp] lemma isAppend_sessionStart (b : Nat) :
    isAppend (Call.sessionStart b) = false := rfl

@[simp] lemma isAppend_sessionAppend (off b : Nat) :
    isAppend (Call.sessionAppend off b) = true := rfl

@[simp] lemma isAppend_sessionFinish (off b : Nat) (c : Commit) :
    isAppend (Call.sessionFinish off b c) = false := rfl

@[simp] lemma isFinish_sessionStart (b : Nat) :
    isFinish (Call.sessionStart b) = false := rfl

@[simp] lemma isFinish_sessionAppend (off b : Nat) :
    isFinish (Call.sessionAppend off b) = false := rfl

@[simp] lemma isFinish_sessionFinish (off b : Nat) (c : Commit) :
    isFinish (Call.sessionFinish off b c) = true := rfl

@[simp] lemma bytesOf_sessionStart (b : Nat) :
    bytesOf (Call.sessionStart b) = b := rfl

@[simp] lemma bytesOf_sessionAppend (off b : Nat) :
    bytesOf (Call.sessionAppend off b) = b := rfl

@[simp] lemma bytesOf_sessionFinish (off b : Nat) (c : Commit) :
    bytesOf (Call.sessionFinish off b c) = b := rfl

lemma sessionLoopCalls_on_multiples (j : Nat) (hj : 1 ≤ j) :
    ∀ (m : Nat) (c : Commit),
      (sessionLoopCalls ((m + j) * CHUNK_SIZE) (m * CHUNK_SIZE) c).length = j
      ∧ (sessionLoopCalls ((m + j) * CHUNK_SIZE) (m * CHUNK_SIZE) c).countP
          (fun call => isAppend call) = j - 1
      ∧ (sessionLoopCalls ((m + j) * CHUNK_SIZE) (m * CHUNK_SIZE) c).countP
          (fun call => isFinish call) = 1
      ∧ (sessionLoopCalls ((m + j) * CHUNK_SIZE) (m * CHUNK_SIZE) c).countP
          (fun call => isStart call) = 0
      ∧ ∀ call ∈ sessionLoopCalls ((m + j) * CHUNK_SIZE) (m * CHUNK_SIZE) c,
          bytesOf call = CHUNK_SIZE := by
  have hC := CHUNK_SIZE_pos
  induction j, hj using Nat.le_induction with
  | base =>
      intro m c
      have hsub : (m + 1) * CHUNK_SIZE - m * CHUNK_SIZE = CHUNK_SIZE := by
        have : (m + 1) * CHUNK_SIZE = m * CHUNK_SIZE + CHUNK_SIZE := by ring
        omega
      have hlt : m * CHUNK_SIZE < (m + 1) * CHUNK_SIZE := by
        have : (m + 1) * CHUNK_SIZE = m * CHUNK_SIZE + CHUNK_SIZE := by ring
        omega
      have hfin : (m + 1) * CHUNK_SIZE
          ≤ m * CHUNK_SIZE + min CHUNK_SIZE ((m + 1) * CHUNK_SIZE - m * CHUNK_SIZE) := by
        rw [hsub, min_self]
        have : (m + 1) * CHUNK_SIZE = m * CHUNK_SIZE + CHUNK_SIZE := by ring
        omega
      rw [sessionLoopCalls_eq_finish c hlt hfin, hsub, min_self]
      refine ⟨rfl, ?_, ?_, ?_, ?_⟩
      · simp [List.countP_cons]
      · simp [List.countP_cons]
      · simp [List.countP_cons]
      · intro call hmem
        rw [List.mem_singleton] at hmem
        subst hmem
        exact bytesOf_sessionFinish _ _ _
  | succ j hj ih =>
      intro m c
      have hmul : (m + (j + 1)) * CHUNK_SIZE = m * CHUNK_SIZE + (j + 1) * CHUNK_SIZE := by
        ring
      have hsub : (m + (j + 1)) * CHUNK_SIZE - m * CHUNK_SIZE = (j + 1) * CHUNK_SIZE := by
        omega
      have hCle : CHUNK_SIZE ≤ (j + 1) * CHUNK_SIZE := by
        have : 1 * CHUNK_SIZE ≤ (j + 1) * CHUNK_SIZE :=
          Nat.mul_le_mul_right _ (by omega)
        omega
      have hlt : m * CHUNK_SIZE < (m + (j + 1)) * CHUNK_SIZE := by
        omega
      have hchunk : min CHUNK_SIZE ((m + (j + 1)) * CHUNK_SIZE - m * CHUNK_SIZE)
          = CHUNK_SIZE := by
        rw [hsub]
        exact min_eq_left hCle
      have hmore : ¬ (m + (j + 1)) * CHUNK_SIZE
          ≤ m * CHUNK_SIZE + min CHUNK_SIZE ((m + (j + 1)) * CHUNK_SIZE - m * CHUNK_SIZE) := by
        rw [hchunk]
        have h1 : (j + 1) * CHUNK_SIZE = j * CHUNK_SIZE + CHUNK_SIZE := by ring
        have h2 : 1 * CHUNK_SIZE ≤ j * CHUNK_SIZE := Nat.mul_le_mul_right _ hj
        omega
      have hnext : m * CHUNK_SIZE + min CHUNK_SIZE ((m + (j + 1)) * CHUNK_SIZE - m * CHUNK_SIZE)
          = (m + 1) * CHUNK_SIZE := by
        rw [hchunk]
        ring
      have hresize : (m + (j + 1)) * CHUNK_SIZE = ((m + 1) + j) * CHUNK_SIZE := by
        ring
      rw [sessionLoopCalls_eq_append c hlt hmore, hchunk]
      have htail := ih (m + 1) c
      rw [← hresize, ← hnext, hchunk] at htail
      obtain ⟨hlen, happ, hfin, hsta, hbytes⟩ := htail
      refine ⟨?_, ?_, ?_, ?_, ?_⟩
      · rw [List.length_cons, hlen]
      · simp [List.countP_cons, happ]
        omega
      · simp [List.countP_cons, hfin]
      · simp [List.countP_cons, hsta]
      · intro call hmem
        rcases List.mem_cons.mp hmem with heq | htl
        · subst heq
          exact bytesOf_sessionAppend _ _
        · exact hbytes call htl

/-- Claim C3 (amended): for every integer k at least 2, the chunked
session protocol on a payload of size exactly k * CHUNK_SIZE issues
exactly k network chunk-calls — one start, k - 2 appends and one finish
— and never issues an empty trailing chunk: every call carries a
positive number of bytes. (For k = 1 the loop body never runs and only
the start call is issued; see the counterexample.) -/
theorem chunked_upload_exact_call_count (k : Nat) (hk : 2 ≤ k) (c : Commit) :
    (sessionCalls (k * CHUNK_SIZE) c).length = k
    ∧ (sessionCalls (k * CHUNK_SIZE) c).countP (fun call => isStart call) = 1
    ∧ (sessionCalls (k * CHUNK_SIZE) c).countP (fun call => isAppend call) = k - 2
    ∧ (sessionCalls (k * CHUNK_SIZE) c).countP (fun call => isFinish call) = 1
    ∧ ∀ call ∈ sessionCalls (k * CHUNK_SIZE) c, 0 < bytesOf call := by
  have hC := CHUNK_SIZE_pos
  have hmin : min CHUNK_SIZE (k * CHUNK_SIZE) = CHUNK_SIZE := by
    apply min_eq_left
    calc CHUNK_SIZE = 1 * CHUNK_SIZE := (one_mul _).symm
    _ ≤ k * CHUNK_SIZE := Nat.mul_le_mul_right _ (by omega)
  have hk1 : (1 + (k - 1)) * CHUNK_SIZE = k * CHUNK_SIZE := by
    congr 1
    omega
  have hmult := sessionLoopCalls_on_multiples (k - 1) (by omega) 1 c
  rw [hk1, one_mul] at hmult
  obtain ⟨hlen, happ, hfin, hsta, hbytes⟩ := hmult
  rw [sessionCalls, hmin]
  refine ⟨?_, ?_, ?_, ?_, ?_⟩
  · rw [List.length_cons, hlen]
    omega
  · simp [List.countP_cons, hsta]
  · simp [List.countP_cons, happ]
    omega
  · simp [List.countP_cons, hfin]
  · intro call hmem
    rcases List.mem_cons.mp hmem with heq | htl
    · subst heq
      rw [bytesOf_sessionStart]
      exact hC
    · rw [hbytes call htl]
      exact hC

/-- Concrete instance of claim C3 at k = 3: three calls in total, of
which exactly one append. -/
theorem chunked_upload_exact_call_count_witness :
    (sessionCalls (3 * CHUNK_SIZE) ⟨"/up/big.bin", UploadMode.add, true⟩).length = 3
    ∧ (sessionCalls (3 * CHUNK_SIZE) ⟨"/up/big.bin", UploadMode.add, true⟩).countP
        (fun call => isAppend call) = 1 := by
  have h := chunked_upload_exact_call_count 3 (by omega)
    ⟨"/up/big.bin", UploadMode.add, true⟩
  exact ⟨h.1, h.2.2.1⟩

/-- Counterexample to claim C3 as stated, at k = 1: the session loop on
a payload of exactly one CHUNK_SIZE issues only the start call — the
loop body never runs, so no finish call is ever sent, rather than the
claimed start-plus-finish pair. -/
theorem chunked_upload_single_chunk_counterexample :
    sessionCalls (1 * CHUNK_SIZE) ⟨"/up/one.bin", UploadMode.add, true⟩
        = [Call.sessionStart CHUNK_SIZE]
    ∧ (sessionCalls (1 * CHUNK_SIZE) ⟨"/up/one.bin", UploadMode.add, true⟩).countP
        (fun call => isFinish call) = 0 := by
  have hnil : sessionLoopCalls (1 * CHUNK_SIZE)
      (min CHUNK_SIZE (1 * CHUNK_SIZE)) ⟨"/up/one.bin", UploadMode.add, true⟩ = [] := by
    apply sessionLoopCalls_eq_nil
    rw [one_mul, min_self]
    exact lt_irrefl _
  constructor
  · rw [sessionCalls, hnil, one_mul, min_self]
  · rw [sessionCalls, hnil]
    simp [List.countP_cons]

/-- Claim C8: the chunked session protocol on a payload of exactly
CHUNK_SIZE + 1 bytes issues a session start carrying CHUNK_SIZE bytes
followed by a session finish carrying 1 byte, sent at offset
CHUNK_SIZE. -/
theorem chunk_plus_one_start_finish (c : Commit) :
    sessionCalls (CHUNK_SIZE + 1) c
      = [Call.sessionStart CHUNK_SIZE, Call.sessionFinish CHUNK_SIZE 1 c] := by
  have hC := CHUNK_SIZE_pos
  have hmin : min CHUNK_SIZE (CHUNK_SIZE + 1) = CHUNK_SIZE :=
    min_eq_left (Nat.le_succ _)
  have hlt : CHUNK_SIZE < CHUNK_SIZE + 1 := Nat.lt_succ_self _
  have hchunk : min CHUNK_SIZE (CHUNK_SIZE + 1 - CHUNK_SIZE) = 1 := by
    have hsub : CHUNK_SIZE + 1 - CHUNK_SIZE = 1 := by omega
    rw [hsub]
    exact min_eq_right (by omega)
  have hfin : CHUNK_SIZE + 1
      ≤ CHUNK_SIZE + min CHUNK_SIZE (CHUNK_SIZE + 1 - CHUNK_SIZE) := by
    rw [hchunk]
  rw [sessionCalls, hmin, sessionLoopCalls_eq_finish c hlt hfin, hchunk]

@[simp] lemma offsetsOf_nil : offsetsOf [] = [] := rfl

@[simp] lemma offsetsOf_cons_start (b : Nat) (rest : List Call) :
    offsetsOf (Call.sessionStart b :: rest) = offsetsOf rest := rfl

@[simp] lemma offsetsOf_cons_append (off b : Nat) (rest : List Call) :
    offsetsOf (Call.sessionAppend off b :: rest) = off :: offsetsOf rest := rfl

@[simp] lemma offsetsOf_cons_finish (off b : Nat) (c : Commit) (rest : List Call) :
    offsetsOf (Call.sessionFinish off b c :: rest) = off :: offsetsOf rest := rfl

@[simp] lemma offsetsOf_cons_small (b : Nat) (c : Commit) (rest : List Call) :
    offsetsOf (Call.uploadSmall b c :: rest) = offsetsOf rest := rfl

lemma sessionLoopCalls_offsetsSeq (size : Nat) :
    ∀ (offset : Nat) (c : Commit),
      OffsetsSeq offset (sessionLoopCalls size offset c) := by
  intro offset c
  induction offset, c using sessionLoopCalls.induct size with
  | case1 offset c h chunk h2 =>
      rw [sessionLoopCalls_eq_finish c h h2]
      exact ⟨rfl, trivial⟩
  | case2 offset c h chunk h2 ih =>
      rw [sessionLoopCalls_eq_append c h h2]
      exact ⟨rfl, ih⟩
  | case3 offset c h =>
      rw [sessionLoopCalls_eq_nil c h]
      trivial

lemma offsetsSeq_chain :
    ∀ (cs : List Call) (acc : Nat), OffsetsSeq acc cs →
      List.Chain' (fun x y => x ≤ y) (offsetsOf cs)
      ∧ ∀ o ∈ offsetsOf cs, acc ≤ o := by
  intro cs
  induction cs with
  | nil =>
      intro acc _
      exact ⟨List.chain'_nil, by simp⟩
  | cons head tail ih =>
      intro acc hseq
      cases head with
      | sessionStart b =>
          obtain ⟨hacc, htail⟩ := hseq
          obtain ⟨hch, hall⟩ := ih b htail
          refine ⟨by simpa using hch, ?_⟩
          intro o ho
          subst hacc
          exact Nat.zero_le o
      | sessionAppend off b =>
          obtain ⟨hoff, htail⟩ := hseq
          obtain ⟨hch, hall⟩ := ih (acc + b) htail
          subst hoff
          constructor
          · rw [offsetsOf_cons_append]
            refine List.Chain'.cons' hch ?_
            intro y hy
            have hmem : y ∈ offsetsOf tail := List.mem_of_mem_head? hy
            have := hall y hmem
            omega
          · intro o ho
            rw [offsetsOf_cons_append] at ho
            rcases List.mem_cons.mp ho with heq | htl
            · omega
            · have := hall o htl
              omega
      | sessionFinish off b cm =>
          obtain ⟨hoff, htail⟩ := hseq
          obtain ⟨hch, hall⟩ := ih (acc + b) htail
          subst hoff
          constructor
          · rw [offsetsOf_cons_finish]
            refine List.Chain'.cons' hch ?_
            intro y hy
            have hmem : y ∈ offsetsOf tail := List.mem_of_mem_head? hy
            have := hall y hmem
            omega
          · intro o ho
            rw [offsetsOf_cons_finish] at ho
            rcases List.mem_cons.mp ho with heq | htl
            · omega
            · have := hall o htl
              omega
      | uploadSmall b cm =>
          obtain ⟨hch, hall⟩ := ih acc hseq
          exact ⟨by simpa using hch, by simpa using hall⟩

/-- Claim C7: throughout every chunked upload session, the start is
issued at the very beginning and each append and the finish is sent at
an offset exactly equal to the total number of bytes already
transmitted in the session, each call advancing the committed offset by
exactly the length of the chunk it carries (`OffsetsSeq 0`); in
particular the sequence of offsets sent is monotonically
non-decreasing. -/
theorem session_offsets_sequential (size : Nat) (c : Commit) :
    OffsetsSeq 0 (sessionCalls size c)
    ∧ List.Chain' (fun x y => x ≤ y) (offsetsOf (sessionCalls size c)) := by
  have hseq : OffsetsSeq 0 (sessionCalls size c) :=
    ⟨rfl, sessionLoopCalls_offsetsSeq size (min CHUNK_SIZE size) c⟩
  exact ⟨hseq, (offsetsSeq_chain (sessionCalls size c) 0 hseq).1⟩

lemma sessionLoopCalls_length_bound (size : Nat) :
    ∀ (offset : Nat) (c : Commit),
      (sessionLoopCalls size offset c).length * CHUNK_SIZE
        ≤ (size - offset) + (CHUNK_SIZE - 1) := by
  intro offset c
  induction offset, c using sessionLoopCalls.induct size with
  | case1 offset c h chunk h2 =>
      rw [sessionLoopCalls_eq_finish c h h2]
      simp only [List.length_cons, List.length_nil, CHUNK_SIZE]
      omega
  | case2 offset c h chunk h2 ih =>
      have h2' : ¬ size ≤ offset + min CHUNK_SIZE (size - offset) := h2
      have hchunk_eq : min CHUNK_SIZE (size - offset) = CHUNK_SIZE := by
        rcases le_total CHUNK_SIZE (size - offset) with hle | hle
        · exact min_eq_left hle
        · exfalso
          apply h2'
          rw [min_eq_right hle]
          omega
      have hch : chunk = CHUNK_SIZE := hchunk_eq
      rw [sessionLoopCalls_eq_append c h h2, List.length_cons, hchunk_eq]
      rw [hch] at ih
      simp only [CHUNK_SIZE] at ih ⊢
      omega
  | case3 offset c h =>
      rw [sessionLoopCalls_eq_nil c h]
      simp only [List.length_nil, CHUNK_SIZE]
      omega

/-- Claim C10: for every payload above the chunking threshold, the
chunked-upload loop of `uploadFile` terminates and issues at most
ceil(size / CHUNK_SIZE) network calls in total: every iteration either
sends the finish call and returns, or advances the offset by a
non-empty chunk. -/
theorem uploadFile_issues_finitely_many_calls (size : Nat) (path name : String)
    (h : SMALL_FILE_THRESHOLD < size) :
    (uploadFileCalls size path name).length
      ≤ (size + CHUNK_SIZE - 1) / CHUNK_SIZE := by
  have hC := CHUNK_SIZE_pos
  have hcs : CHUNK_SIZE < size := by
    simp only [CHUNK_SIZE, SMALL_FILE_THRESHOLD] at *
    omega
  have hmin : min CHUNK_SIZE size = CHUNK_SIZE := min_eq_left (le_of_lt hcs)
  rw [uploadFileCalls, if_pos h, sessionCalls, hmin, List.length_cons]
  have hloop := sessionLoopCalls_length_bound size CHUNK_SIZE
    ⟨targetPath path name, UploadMode.add, true⟩
  rw [Nat.le_div_iff_mul_le hC]
  simp only [CHUNK_SIZE] at hloop hcs ⊢
  omega

/-- Concrete instance of claim C10: a 160 MiB payload issues at most
ceil(160 MiB / 64 MiB) = 3 calls. -/
theorem uploadFile_issues_finitely_many_calls_witness :
    (uploadFileCalls 167772160 "/media" "video.mp4").length
      ≤ (167772160 + CHUNK_SIZE - 1) / CHUNK_SIZE :=
  uploadFile_issues_finitely_many_calls 167772160 "/media" "video.mp4" (by decide)

lemma cacheLookup_set (K k : String) (v : Entry) (m : EntryCache) :
    cacheLookup (cacheSet m K v) k = if k = K then some v else cacheLookup m k := by
  rw [cacheSet]
  by_cases hany : m.any (fun p => p.1 == K) = true
  · rw [if_pos hany, cacheLookup, List.find?_map]
    have hcomp : ((fun p : String × Entry => p.1 == k) ∘
        (fun p : String × Entry => if p.1 == K then (p.1, v) else p))
        = (fun p : String × Entry => p.1 == k) := by
      funext p
      by_cases hp : p.1 = K
      · simp [Function.comp, hp]
      · simp [Function.comp, hp]
    rw [hcomp]
    by_cases hk : k = K
    · subst hk
      have hsome : (m.find? (fun p => p.1 == k)).isSome = true := by
        rw [List.find?_isSome]
        exact List.any_eq_true.mp hany
      obtain ⟨q, hq⟩ := Option.isSome_iff_exists.mp hsome
      have hq1 : q.1 = k := by simpa using List.find?_some hq
      rw [hq, if_pos rfl]
      simp [hq1]
    · rw [if_neg hk, cacheLookup]
      cases hfind : m.find? (fun p => p.1 == k) with
      | none => simp
      | some q =>
          have hq1 : q.1 = k := by simpa using List.find?_some hfind
          have hqne : q.1 ≠ K := by
            rw [hq1]
            exact hk
          simp [hqne]
  · rw [if_neg hany, cacheLookup, List.find?_append]
    by_cases hk : k = K
    · subst hk
      have hnone : m.find? (fun p => p.1 == k) = none := by
        rw [List.find?_eq_none]
        intro p hp hpk
        exact hany (List.any_eq_true.mpr ⟨p, hp, hpk⟩)
      rw [hnone, if_pos rfl]
      simp [List.find?_cons]
    · rw [if_neg hk]
      have hsingle : List.find? (fun p => p.1 == k) [(K, v)] = none := by
        rw [List.find?_eq_none]
        intro p hp
        simp at hp
        subst hp
        simp
        intro hcontra
        exact hk hcontra.symm
      rw [hsingle, cacheLookup]
      simp

lemma cacheLookup_delete (K k : String) (m : EntryCache) :
    cacheLookup (cacheDelete m K) k = if k = K then none else cacheLookup m k := by
  rw [cacheDelete]
  by_cases hk : k = K
  · subst hk
    rw [if_pos rfl, cacheLookup]
    have hnone : List.find? (fun p => p.1 == k) (m.filter fun p => p.1 != k) = none := by
      rw [List.find?_eq_none]
      intro p hp
      have hne := (List.mem_filter.mp hp).2
      simp only [bne_iff_ne, ne_eq, decide_eq_true_eq] at hne
      simp only [beq_iff_eq]
      simpa using hne
    rw [hnone]
    rfl
  · rw [if_neg hk, cacheLookup, cacheLookup, List.find?_filter]
    have hpred : (fun a : String × Entry =>
          decide ((a.1 != K) = true ∧ (a.1 == k) = true))
        = (fun p : String × Entry => p.1 == k) := by
      funext p
      by_cases hpk : (p.1 == k) = true
      · have hp1 : p.1 = k := by simpa using hpk
        have hpK : (p.1 != K) = true := by
          simp only [bne_iff_ne, ne_eq, decide_eq_true_eq]
          rw [hp1]
          exact hk
        simp [hpk, hpK]
      · simp [hpk]
    rw [hpred]

lemma cacheLookup_applyChange (m : EntryCache) (c : Change) (k : String) :
    cacheLookup (applyChange m c) k = applyKey k (cacheLookup m k) c := by
  cases c with
  | tombstone k2 => exact cacheLookup_delete k2 k m
  | upsert e => exact cacheLookup_set e.key k e m

lemma cacheLookup_applyChanges (cs : List Change) :
    ∀ (m : EntryCache) (k : String),
      cacheLookup (applyChanges m cs) k
        = cs.foldl (applyKey k) (cacheLookup m k) := by
  induction cs with
  | nil =>
      intro m k
      rfl
  | cons c rest ih =>
      intro m k
      rw [applyChanges, List.foldl_cons, List.foldl_cons]
      rw [show List.foldl applyChange (applyChange m c) rest
            = applyChanges (applyChange m c) rest from rfl]
      rw [ih (applyChange m c) k, cacheLookup_applyChange]

lemma foldl_applyKey_untouched (k : String) :
    ∀ (cs : List Change) (v : Option Entry),
      (∀ c ∈ cs, touches k c = false) → cs.foldl (applyKey k) v = v := by
  intro cs
  induction cs with
  | nil => intro v _; rfl
  | cons c rest ih =>
      intro v hall
      rw [List.foldl_cons]
      have hc := hall c (List.mem_cons_self c rest)
      have hstep : applyKey k v c = v := by
        cases c with
        | tombstone k2 =>
            have : k ≠ k2 := by simpa [touches] using hc
            simp [applyKey, this]
        | upsert e =>
            have : k ≠ e.key := by simpa [touches] using hc
            simp [applyKey, this]
      rw [hstep]
      exact ih v (fun c2 h2 => hall c2 (List.mem_cons_of_mem c h2))

lemma foldl_applyKey_touched (k : String) :
    ∀ (cs : List Change), (∃ c ∈ cs, touches k c = true) →
      ∀ (v w : Option Entry),
        cs.foldl (applyKey k) v = cs.foldl (applyKey k) w := by
  intro cs
  induction cs with
  | nil =>
      rintro ⟨c, hc, _⟩
      cases hc
  | cons c rest ih =>
      rintro ⟨c2, hc2, htouch⟩ v w
      rw [List.foldl_cons, List.foldl_cons]
      by_cases hrest : ∃ c3 ∈ rest, touches k c3 = true
      · exact ih hrest _ _
      · have hcc : c2 = c := by
          rcases List.mem_cons.mp hc2 with heq | hmem
          · exact heq
          · exact absurd ⟨c2, hmem, htouch⟩ hrest
        rw [hcc] at htouch
        have hstep : applyKey k v c = applyKey k w c := by
          cases c with
          | tombstone k2 =>
              have : k = k2 := by simpa [touches] using htouch
              simp [applyKey, this]
          | upsert e =>
              have : k = e.key := by simpa [touches] using htouch
              simp [applyKey, this]
        rw [hstep]

/-- Claim C4: applying a delta batch of change records twice — each
upsert replacing the entry with the same key, each tombstone removing
that key, records applied in server order — yields exactly the same
Entry Cache as applying it once: the two caches store the same entry
under every key. -/
theorem delta_apply_idempotent (m : EntryCache) (cs : List Change) (k : String) :
    cacheLookup (applyChanges (applyChanges m cs) cs) k
      = cacheLookup (applyChanges m cs) k := by
  rw [cacheLookup_applyChanges, cacheLookup_applyChanges]
  by_cases htouch : ∃ c ∈ cs, touches k c = true
  · exact foldl_applyKey_touched k cs htouch _ _
  · push_neg at htouch
    have hall : ∀ c ∈ cs, touches k c = false := by
      intro c hc
      have := htouch c hc
      simpa using this
    rw [foldl_applyKey_untouched k cs _ hall, foldl_applyKey_untouched k cs _ hall]

/-- Claim C5 (amended): on a delta-fetch failure during reconciliation
the polling cycle catches the error — nothing is surfaced to the caller
— and itself falls back to a full re-listing: the state is replaced
wholesale by the fresh listing (its entries and its cursor); the failed
delta's cursor is never adopted, but the Entry Cache is not left
untouched. -/
theorem delta_error_full_reload (env : PollEnv) (s : FBState) (r : PollResult)
    (e : Unit) (hp : env.poll = Except.ok r) (hc : r.changes = true)
    (hd : env.delta = Except.error e) :
    (pollCycle env s).state = env.fresh
    ∧ (pollCycle env s).fullReload = true
    ∧ (pollCycle env s).deltaAttempted = true
    ∧ (pollCycle env s).errorSurfaced = false := by
  obtain ⟨poll, delta, fresh⟩ := env
  simp only at hp hd
  subst hp
  subst hd
  simp [pollCycle, hc]

/-- Concrete instance of the amended claim C5: with a poll reporting
changes and a failing delta fetch, the cycle swallows the error and
adopts the fresh listing. -/
theorem delta_error_full_reload_witness :
    (pollCycle ⟨Except.ok ⟨true, none⟩, Except.error (), ⟨[], "fresh-cursor"⟩⟩
        ⟨[], "old-cursor"⟩).state = (⟨[], "fresh-cursor"⟩ : FBState)
    ∧ (pollCycle ⟨Except.ok ⟨true, none⟩, Except.error (), ⟨[], "fresh-cursor"⟩⟩
        ⟨[], "old-cursor"⟩).fullReload = true := by
  have h := delta_error_full_reload
    ⟨Except.ok ⟨true, none⟩, Except.error (), ⟨[], "fresh-cursor"⟩⟩
    ⟨[], "old-cursor"⟩ ⟨true, none⟩ () rfl rfl rfl
  exact ⟨h.1, h.2.1⟩

/-- Counterexample to claim C5 as stated: on a failed delta fetch the
cycle performs a full re-listing itself, surfaces no error, replaces
the Entry Cache with the fresh listing, and moves the cursor off the
old value — rather than leaving the cache untouched and surfacing the
error. -/
theorem delta_error_counterexample :
    (pollCycle ⟨Except.ok ⟨true, none⟩, Except.error (),
        ⟨[⟨"/a/x.txt", "x.txt", false, 3⟩], "fresh-cursor"⟩⟩
        ⟨[], "old-cursor"⟩).fullReload = true
    ∧ (pollCycle ⟨Except.ok ⟨true, none⟩, Except.error (),
        ⟨[⟨"/a/x.txt", "x.txt", false, 3⟩], "fresh-cursor"⟩⟩
        ⟨[], "old-cursor"⟩).errorSurfaced = false
    ∧ (pollCycle ⟨Except.ok ⟨true, none⟩, Except.error (),
        ⟨[⟨"/a/x.txt", "x.txt", false, 3⟩], "fresh-cursor"⟩⟩
        ⟨[], "old-cursor"⟩).state.entries ≠ ([] : List Entry)
    ∧ (pollCycle ⟨Except.ok ⟨true, none⟩, Except.error (),
        ⟨[⟨"/a/x.txt", "x.txt", false, 3⟩], "fresh-cursor"⟩⟩
        ⟨[], "old-cursor"⟩).state.cursor ≠ "old-cursor" := by
  decide

/-- Claim C6 (amended): a long-poll response carrying a non-zero
backoff of b seconds makes the driver schedule its next poll after
exactly b * 1000 ms — at least the requested duration — but a delta is
still fetched in that same cycle exactly when the response also signals
changes; the backoff suppresses only the re-poll delay, not the delta
fetch. -/
theorem backoff_waits_before_next_poll (env : PollEnv) (s : FBState)
    (r : PollResult) (b : Nat) (hp : env.poll = Except.ok r)
    (hb : r.backoff = some b) (hb0 : b ≠ 0) :
    (pollCycle env s).delayMs = b * 1000
    ∧ (pollCycle env s).deltaAttempted = r.changes := by
  obtain ⟨poll, delta, fresh⟩ := env
  simp only at hp
  subst hp
  constructor
  · simp [pollCycle, hb, hb0]
  · cases hc : r.changes with
    | false => simp [pollCycle, hc]
    | true =>
        cases hdelta : delta with
        | ok d => simp [pollCycle, hc, hdelta]
        | error e => simp [pollCycle, hc, hdelta]

/-- Concrete instance of the amended claim C6: backoff 7 with no
changes delays the next poll by 7000 ms and fetches no delta. -/
theorem backoff_waits_before_next_poll_witness :
    (pollCycle ⟨Except.ok ⟨false, some 7⟩, Except.ok ⟨[], "nc"⟩, ⟨[], "f"⟩⟩
        ⟨[], "c0"⟩).delayMs = 7 * 1000
    ∧ (pollCycle ⟨Except.ok ⟨false, some 7⟩, Except.ok ⟨[], "nc"⟩, ⟨[], "f"⟩⟩
        ⟨[], "c0"⟩).deltaAttempted = false := by
  have h := backoff_waits_before_next_poll
    ⟨Except.ok ⟨false, some 7⟩, Except.ok ⟨[], "nc"⟩, ⟨[], "f"⟩⟩
    ⟨[], "c0"⟩ ⟨false, some 7⟩ 7 rfl rfl (by decide)
  exact ⟨h.1, h.2⟩

/-- Counterexample to claim C6 as stated: a long-poll response carrying
backoffSeconds = 5 together with the changes flag does cause a 5000 ms
wait, but the driver still fetches and applies a delta in that very
cycle, contradicting "fetches no delta in that cycle". -/
theorem backoff_counterexample :
    (pollCycle ⟨Except.ok ⟨true, some 5⟩, Except.ok ⟨[], "next-cursor"⟩,
        ⟨[], "f"⟩⟩ ⟨[], "c0"⟩).delayMs = 5000
    ∧ (pollCycle ⟨Except.ok ⟨true, some 5⟩, Except.ok ⟨[], "next-cursor"⟩,
        ⟨[], "f"⟩⟩ ⟨[], "c0"⟩).deltaAttempted = true := by
  decide

lemma poolStep_inv (B C : Nat) {s t : List Nat} (hstep : PoolStep B C s t)
    (hinv : PoolInv B C s) : PoolInv B C t := by
  obtain ⟨hlen, hall⟩ := hinv
  cases hstep with
  | startJob s h =>
      refine ⟨by simpa using h, ?_⟩
      intro j hj
      rcases List.mem_cons.mp hj with heq | hmem
      · omega
      · exact hall j hmem
  | startChunk pre post j h =>
      refine ⟨by simpa using hlen, ?_⟩
      intro x hx
      simp only [List.mem_append, List.mem_cons] at hx
      rcases hx with hpre | heq | hpost
      · exact hall x (by simp [hpre])
      · omega
      · exact hall x (by simp [hpost])
  | endChunk pre post j =>
      refine ⟨by simpa using hlen, ?_⟩
      intro x hx
      simp only [List.mem_append, List.mem_cons] at hx
      rcases hx with hpre | heq | hpost
      · exact hall x (by simp [hpre])
      · have := hall (j + 1) (by simp)
        omega
      · exact hall x (by simp [hpost])
  | endJob pre post =>
      constructor
      · have : (pre ++ post).length ≤ (pre ++ 0 :: post).length := by
          simp
        omega
      · intro x hx
        simp only [List.mem_append] at hx
        rcases hx with hpre | hpost
        · exact hall x (by simp [hpre])
        · exact hall x (by simp [hpost])

lemma poolReachable_inv (B C : Nat) {s : List Nat}
    (h : PoolReachable B C s) : PoolInv B C s := by
  induction h with
  | init => exact ⟨by simp, by simp⟩
  | step hreach hstep ih => exact poolStep_inv B C hstep ih

/-- Claim C9: for every batch run with outer pool bound B (maximum
concurrently active upload jobs) and inner pool bound C (maximum
concurrent chunk operations within one job), every scheduler state
reachable from the idle scheduler has at most B * C concurrent network
operations in total. -/
theorem pool_concurrency_bound (B C : Nat) (s : List Nat)
    (h : PoolReachable B C s) : s.sum ≤ B * C := by
  obtain ⟨hlen, hall⟩ := poolReachable_inv B C h
  calc s.sum ≤ s.length • C := List.sum_le_card_nsmul s C hall
  _ = s.length * C := by simp [smul_eq_mul]
  _ ≤ B * C := Nat.mul_le_mul_right C hlen

/-- Concrete instance of claim C9: with B = 2 and C = 3, the state
reached by starting one job and one chunk operation carries 1 ≤ 6
concurrent operations. -/
theorem pool_concurrency_bound_witness : ([1] : List Nat).sum ≤ 2 * 3 :=
  pool_concurrency_bound 2 3 [1]
    (PoolReachable.step
      (PoolReachable.step PoolReachable.init (PoolStep.startJob [] (by decide)))
      (PoolStep.startChunk [] [] 0 (by decide)))

end DropboxSamples
